import Mathlib

/-
Shallow embedding of `src/src/maze.rs` (randomized Kruskal-style maze
generator compiled to wasm).  Randomness is made explicit: every call that
draws from the thread-local RNG takes a `Nat` choice parameter and selects
`choice % length` from the candidate list, which ranges over all outcomes
the Rust code can produce.  Rust panics (empty-range sampling in `new`,
the `unwrap` in `run`) are modelled as `none`.
-/

/-- Modelled from the spec: the four wall flags of the `Block` type of the
missing `block.rs`, one per cardinal direction in the order up, right,
down, left (`DIRECTION::UP/RIGHT/DOWN/LEFT` of the missing
`constants.rs`). "true" means the wall is still present. -/
structure Walls where
  up : Bool
  right : Bool
  down : Bool
  left : Bool
deriving Repr, DecidableEq, Inhabited

/-- The `Block` struct: grid coordinates, region tag (`index`), the four
wall flags and the `visited` flag (the spec's `seed`). Fields are from
`maze.rs`'s uses of `Block`; the missing `block.rs` holds the struct. -/
structure Block where
  x : Nat
  y : Nat
  index : Nat
  walls : Walls
  visited : Bool
deriving Repr, DecidableEq, Inhabited

/-- Modelled from the spec: `Block::new(x, y, i)` of the missing
`block.rs` — all four walls present, region tag equal to the linear
index, seed flag off. -/
def Block.new (x y i : Nat) : Block :=
  { x := x, y := y, index := i
    walls := { up := true, right := true, down := true, left := true }
    visited := false }

/-- The `Maze` struct of `maze.rs`. -/
structure Maze where
  cols : Nat
  rows : Nat
  blocks : List Block
deriving Repr, DecidableEq, Inhabited

/-- In-place update `blocks[i] = f blocks[i]` (out of range: no-op; the
Rust code never indexes out of range on the executions we consider). -/
def updateAt (bs : List Block) (i : Nat) (f : Block → Block) : List Block :=
  match bs, i with
  | [], _ => []
  | b :: rest, 0 => f b :: rest
  | b :: rest, n + 1 => b :: updateAt rest n f

/-- The nested loop of `Maze::new`: for `y in 0..rows`, `x in 0..cols`,
push `Block::new(x, y, i)` with `i` the running counter `y*cols + x`. -/
def mkBlocks (cols rows : Nat) : List Block :=
  (List.range rows).flatMap fun y =>
    (List.range cols).map fun x => Block.new x y (y * cols + x)

/-- `Maze::new(cols, rows)`: builds the row-major block list, then marks
one uniformly random block visited. `rng.gen_range(0..blocks.len())`
panics when the range is empty (cols*rows = 0), modelled as `none`. -/
def Maze.new (cols rows choice : Nat) : Option Maze :=
  let blocks := mkBlocks cols rows
  if blocks.length = 0 then none
  else
    some { cols := cols, rows := rows
           blocks := updateAt blocks (choice % blocks.length)
                       (fun b => { b with visited := true }) }

/-- `Maze::possible_directions(index)`: collects neighbor indices in the
order up, right, down, left; a direction is pushed when the coordinate
guard holds, the facing wall of `blocks[index]` is still present, and the
neighbor's region tag differs. -/
def Maze.possible_directions (m : Maze) (index : Nat) : List Nat :=
  let block := m.blocks.getD index default
  (if 0 < block.y ∧ block.walls.up = true ∧
      (m.blocks.getD (index - m.cols) default).index ≠ block.index
   then [index - m.cols] else [])
  ++
  (if block.x < m.cols - 1 ∧ block.walls.right = true ∧
      (m.blocks.getD (index + 1) default).index ≠ block.index
   then [index + 1] else [])
  ++
  (if block.y < m.rows - 1 ∧ block.walls.down = true ∧
      (m.blocks.getD (index + m.cols) default).index ≠ block.index
   then [index + m.cols] else [])
  ++
  (if 0 < block.x ∧ block.walls.left = true ∧
      (m.blocks.getD (index - 1) default).index ≠ block.index
   then [index - 1] else [])

/-- `Maze::get_visited_neighborhood(index)`: `None` when no candidate,
the sole candidate when there is exactly one, otherwise a random
element (`choice % len` ranges over every outcome of `choose`). -/
def Maze.get_visited_neighborhood (m : Maze) (index choice : Nat) : Option Nat :=
  let possible_directions := m.possible_directions index
  if possible_directions.length = 0 then none
  else if possible_directions.length = 1 then some (possible_directions.getD 0 0)
  else some (possible_directions.getD (choice % possible_directions.length) 0)

/-- `Maze::get_random_possible_block()`: for each enumerated position
with a non-empty `possible_directions`, pushes `block.index` — the
REGION TAG, not the enumeration position — then draws one at random. -/
def Maze.get_random_possible_block (m : Maze) (choice : Nat) : Option Nat :=
  let keys := (List.range m.blocks.length).filterMap fun index =>
    if 0 < (m.possible_directions index).length
    then some ((m.blocks.getD index default).index) else none
  if keys.length = 0 then none
  else some (keys.getD (choice % keys.length) 0)

/-- `blocks[i].visited = true`, as a block transformer. -/
def setVisited (b : Block) : Block := { b with visited := true }

/-- `blocks[i].walls[DIRECTION::UP] = false`, as a block transformer. -/
def clearUp (b : Block) : Block := { b with walls := { b.walls with up := false } }

/-- `blocks[i].walls[DIRECTION::RIGHT] = false`, as a block transformer. -/
def clearRight (b : Block) : Block := { b with walls := { b.walls with right := false } }

/-- `blocks[i].walls[DIRECTION::DOWN] = false`, as a block transformer. -/
def clearDown (b : Block) : Block := { b with walls := { b.walls with down := false } }

/-- `blocks[i].walls[DIRECTION::LEFT] = false`, as a block transformer. -/
def clearLeft (b : Block) : Block := { b with walls := { b.walls with left := false } }

/-- `Maze::break_wall(current_index, next_index)`: marks both blocks
visited, then resolves the relative direction of `next` by comparing
linear indices against `cols` and clears one wall flag on each side.
Note the source guards `next_index > 1` and `next_index > self.cols`
(strict), faithfully kept here. -/
def Maze.break_wall (m : Maze) (current_index next_index : Nat) : Maze :=
  let bs := updateAt m.blocks current_index setVisited
  let bs := updateAt bs next_index setVisited
  if current_index = next_index + m.cols then
    { m with blocks := updateAt (updateAt bs current_index clearUp) next_index clearDown }
  else if 1 < next_index ∧ current_index = next_index - 1 then
    { m with blocks := updateAt (updateAt bs current_index clearRight) next_index clearLeft }
  else if m.cols < next_index ∧ current_index = next_index - m.cols then
    { m with blocks := updateAt (updateAt bs current_index clearDown) next_index clearUp }
  else
    { m with blocks := updateAt (updateAt bs current_index clearLeft) next_index clearRight }

/-- `Maze::join_indexes(current_index, next_index)`: every block whose
tag equals the tag of `blocks[next_index]` is rewritten to the tag of
`blocks[current_index]`. -/
def Maze.join_indexes (m : Maze) (current_index next_index : Nat) : Maze :=
  let new_index := (m.blocks.getD current_index default).index
  let old_index := (m.blocks.getD next_index default).index
  { m with blocks := m.blocks.map fun block =>
      if block.index = old_index then { block with index := new_index } else block }

/-- `Maze::run(context)` — the spec's `step()`. Drawing is external and
dropped; the returned `Bool` is the spec's progress flag (`true` on the
`Some` branch, `false` on `None`). The `.unwrap()` on
`get_visited_neighborhood` panics when that call returns `None`,
modelled as `none`. -/
def Maze.run (m : Maze) (cFrontier cNeighbor : Nat) : Option (Maze × Bool) :=
  match m.get_random_possible_block cFrontier with
  | some index =>
    match m.get_visited_neighborhood index cNeighbor with
    | some next_block =>
      some ((m.break_wall index next_block).join_indexes index next_block, true)
    | none => none
  | none => some (m, false)

/-! ## Derived notions used to state the claims -/

/-- Number of blocks whose `visited` (seed) flag is set. -/
def countVisited (bs : List Block) : Nat := (bs.filter fun b => b.visited).length

/-- `wallsLe w v`: every wall still present in `w` was already present in
`v` — i.e. going from `v` to `w` only removes walls. -/
def wallsLe (w v : Walls) : Prop :=
  (w.up = true → v.up = true) ∧ (w.right = true → v.right = true) ∧
  (w.down = true → v.down = true) ∧ (w.left = true → v.left = true)

/-- Number of wall flags on which two wall states disagree. -/
def wallsDiff (w v : Walls) : Nat :=
  (if w.up = v.up then 0 else 1) + (if w.right = v.right then 0 else 1) +
  (if w.down = v.down then 0 else 1) + (if w.left = v.left then 0 else 1)

/-- One open passage: `j` is a grid neighbor of `i` and the wall of `i`
facing `j` is absent. Bounds are part of the relation. -/
def adjOpenB (m : Maze) (i j : Nat) : Bool :=
  decide (i < m.blocks.length) && decide (j < m.blocks.length) &&
  ((decide (j = i + 1) && decide (i % m.cols + 1 < m.cols) &&
      !(m.blocks.getD i default).walls.right)
   || (decide (i = j + 1) && decide (j % m.cols + 1 < m.cols) &&
      !(m.blocks.getD i default).walls.left)
   || (decide (j = i + m.cols) && !(m.blocks.getD i default).walls.down)
   || (decide (i = j + m.cols) && !(m.blocks.getD i default).walls.up))

/-- Reachability by crossing only open (absent) walls. -/
def Reachable (m : Maze) (i j : Nat) : Prop :=
  Relation.ReflTransGen (fun a b => adjOpenB m a b = true) i j

/-- Structural well-formedness that `Maze::new` establishes: the block
list has `cols*rows` entries and the stored coordinates of the block at
linear position `i` are `i % cols` and `i / cols`. -/
def WellFormed (m : Maze) : Prop :=
  m.blocks.length = m.cols * m.rows ∧
  ∀ i, i < m.blocks.length →
    (m.blocks.getD i default).x = i % m.cols ∧
    (m.blocks.getD i default).y = i / m.cols

instance (m : Maze) : Decidable (WellFormed m) := by
  unfold WellFormed; infer_instance

/-- The spec's characterization of a candidate edge of cell `i`
(claim C9), with the neighbor-existence tests expressed in linear-index
arithmetic: `j` is a candidate neighbor of `i` iff it lies within grid
bounds in one of the four cardinal directions, the wall of `i` facing it
is still present, and the region tags differ. -/
def candidate_spec (m : Maze) (i j : Nat) : Prop :=
  (m.cols ≤ i ∧ j = i - m.cols ∧ (m.blocks.getD i default).walls.up = true ∧
    (m.blocks.getD j default).index ≠ (m.blocks.getD i default).index) ∨
  (i % m.cols + 1 < m.cols ∧ j = i + 1 ∧ (m.blocks.getD i default).walls.right = true ∧
    (m.blocks.getD j default).index ≠ (m.blocks.getD i default).index) ∨
  (i + m.cols < m.cols * m.rows ∧ j = i + m.cols ∧ (m.blocks.getD i default).walls.down = true ∧
    (m.blocks.getD j default).index ≠ (m.blocks.getD i default).index) ∨
  (0 < i % m.cols ∧ j = i - 1 ∧ (m.blocks.getD i default).walls.left = true ∧
    (m.blocks.getD j default).index ≠ (m.blocks.getD i default).index)

instance (m : Maze) (i j : Nat) : Decidable (candidate_spec m i j) := by
  unfold candidate_spec; infer_instance

/-- Every region tag is the linear index of some cell (claim C10). -/
def tagsInRange (m : Maze) : Prop :=
  ∀ i, i < m.blocks.length → (m.blocks.getD i default).index < m.blocks.length

instance (m : Maze) : Decidable (tagsInRange m) := by
  unfold tagsInRange; infer_instance

/-! ## Concrete executions used by the counterexamples and witnesses -/

/-- The 2×1 grid, seed drawn at block 0. -/
def maze21 : Maze := (Maze.new 2 1 0).getD default

/-- One `run` on `maze21` whose frontier draw picks key 0 (so the
source calls `break_wall(0, 1)`). -/
def maze21s : Maze × Bool := (maze21.run 0 0).getD default

/-- The 3×1 grid, seed drawn at block 0. -/
def maze31 : Maze := (Maze.new 3 1 0).getD default

/-- One `run` on `maze31` whose frontier draw picks key 2 (the source
then merges cells 2 and 1, leaving region tags `[0, 2, 2]`). -/
def maze31s : Maze × Bool := (maze31.run 2 0).getD default

/-- The 2×2 grid, seed drawn at block 0. -/
def maze22 : Maze := (Maze.new 2 2 0).getD default

/-! ## Generic helper lemmas about the embedding's building blocks -/

theorem updateAt_length (bs : List Block) (i : Nat) (f : Block → Block) :
    (updateAt bs i f).length = bs.length := by
  induction bs generalizing i with
  | nil => rfl
  | cons b rest ih =>
    cases i with
    | zero => rfl
    | succ n => simp [updateAt, ih]

theorem updateAt_getD (bs : List Block) (i j : Nat) (f : Block → Block) (d : Block) :
    (updateAt bs i f).getD j d =
      if j = i ∧ j < bs.length then f (bs.getD j d) else bs.getD j d := by
  induction bs generalizing i j with
  | nil => simp [updateAt]
  | cons b rest ih =>
    cases i with
    | zero =>
      cases j with
      | zero => simp [updateAt]
      | succ k => simp [updateAt]
    | succ n =>
      cases j with
      | zero => simp [updateAt]
      | succ k =>
        simp only [updateAt, List.getD_cons_succ, ih, List.length_cons]
        have hiff : (k = n ∧ k < rest.length) ↔ (k + 1 = n + 1 ∧ k + 1 < rest.length + 1) := by
          omega
        by_cases hc : k = n ∧ k < rest.length
        · rw [if_pos hc, if_pos (hiff.mp hc)]
        · rw [if_neg hc, if_neg (fun h => hc (hiff.mpr h))]

theorem getD_updateAt_of_ne (bs : List Block) (i j : Nat) (f : Block → Block) (d : Block)
    (h : j ≠ i) : (updateAt bs i f).getD j d = bs.getD j d := by
  rw [updateAt_getD]; simp [h]

theorem map_getD_lt (g : Block → Block) (bs : List Block) (j : Nat) (d : Block)
    (h : j < bs.length) : (bs.map g).getD j d = g (bs.getD j d) := by
  rw [List.getD_eq_getElem _ _ (by simpa using h), List.getD_eq_getElem _ _ h,
    List.getElem_map]

theorem mkBlocks_succ (cols r : Nat) :
    mkBlocks cols (r + 1) =
      mkBlocks cols r ++ (List.range cols).map fun x => Block.new x r (r * cols + x) := by
  simp [mkBlocks, List.range_succ, List.flatMap_append]

theorem mkBlocks_length (cols rows : Nat) : (mkBlocks cols rows).length = rows * cols := by
  induction rows with
  | zero => simp [mkBlocks]
  | succ r ih => simp [mkBlocks_succ, ih, Nat.succ_mul]

theorem mkBlocks_getD (cols rows i : Nat) (d : Block) (h : i < rows * cols) :
    (mkBlocks cols rows).getD i d = Block.new (i % cols) (i / cols) i := by
  induction rows with
  | zero => rw [Nat.zero_mul] at h; exact absurd h (Nat.not_lt_zero i)
  | succ r ih =>
    rw [Nat.succ_mul] at h
    rw [mkBlocks_succ]
    by_cases hlt : i < r * cols
    · rw [List.getD_append _ _ _ _ (by rw [mkBlocks_length]; exact hlt)]
      exact ih hlt
    · have hcols : 0 < cols := by
        rcases Nat.eq_zero_or_pos cols with h0 | h0
        · subst h0; omega
        · exact h0
      obtain ⟨k, hklt, rfl⟩ : ∃ k, k < cols ∧ i = r * cols + k :=
        ⟨i - r * cols, by omega, by omega⟩
      rw [List.getD_append_right _ _ _ _ (by rw [mkBlocks_length]; omega)]
      rw [mkBlocks_length]
      have hsub : r * cols + k - r * cols = k := by omega
      rw [hsub]
      rw [List.getD_eq_getElem _ _ (by simpa using hklt), List.getElem_map,
        List.getElem_range]
      have hmod : (r * cols + k) % cols = k := by
        rw [Nat.mul_comm r cols, Nat.mul_add_mod]
        exact Nat.mod_eq_of_lt hklt
      have hdiv : (r * cols + k) / cols = r := by
        rw [Nat.mul_comm r cols, Nat.mul_add_div hcols, Nat.div_eq_of_lt hklt]
        omega
      rw [hmod, hdiv]

theorem mkBlocks_visited (cols rows : Nat) :
    ∀ b ∈ mkBlocks cols rows, b.visited = false := by
  intro b hb
  simp only [mkBlocks, List.mem_flatMap, List.mem_map, List.mem_range] at hb
  obtain ⟨y, -, x, -, rfl⟩ := hb
  rfl

/-! ## Behavior of break_wall, join_indexes and run -/

theorem wallsLe_refl (w : Walls) : wallsLe w w := ⟨id, id, id, id⟩

theorem wallsLe_trans {a b c : Walls} (h1 : wallsLe a b) (h2 : wallsLe b c) : wallsLe a c :=
  ⟨fun h => h2.1 (h1.1 h), fun h => h2.2.1 (h1.2.1 h), fun h => h2.2.2.1 (h1.2.2.1 h),
   fun h => h2.2.2.2 (h1.2.2.2 h)⟩

theorem updateAt_getD_wallsLe (bs : List Block) (i j : Nat) (f : Block → Block) (d : Block)
    (hf : ∀ b, wallsLe (f b).walls b.walls) :
    wallsLe ((updateAt bs i f).getD j d).walls ((bs.getD j d).walls) := by
  rw [updateAt_getD]; split_ifs with h
  · exact hf _
  · exact wallsLe_refl _

theorem updateAt_getD_visited (bs : List Block) (i j : Nat) (f : Block → Block) (d : Block)
    (hf : ∀ b, b.visited = true → (f b).visited = true) :
    (bs.getD j d).visited = true → ((updateAt bs i f).getD j d).visited = true := by
  rw [updateAt_getD]; split_ifs with h
  · exact fun hv => hf _ hv
  · exact id

theorem updateAt_getD_index (bs : List Block) (i j : Nat) (f : Block → Block) (d : Block)
    (hf : ∀ b, (f b).index = b.index) :
    ((updateAt bs i f).getD j d).index = (bs.getD j d).index := by
  rw [updateAt_getD]; split_ifs with h
  · exact hf _
  · rfl

theorem setVisited_wallsLe : ∀ b : Block, wallsLe (setVisited b).walls b.walls :=
  fun _ => wallsLe_refl _

theorem clearUp_wallsLe : ∀ b : Block, wallsLe (clearUp b).walls b.walls := by
  intro b; simp [clearUp, wallsLe]

theorem clearRight_wallsLe : ∀ b : Block, wallsLe (clearRight b).walls b.walls := by
  intro b; simp [clearRight, wallsLe]

theorem clearDown_wallsLe : ∀ b : Block, wallsLe (clearDown b).walls b.walls := by
  intro b; simp [clearDown, wallsLe]

theorem clearLeft_wallsLe : ∀ b : Block, wallsLe (clearLeft b).walls b.walls := by
  intro b; simp [clearLeft, wallsLe]

theorem break_wall_length (m : Maze) (ci ni : Nat) :
    (m.break_wall ci ni).blocks.length = m.blocks.length := by
  simp only [Maze.break_wall]; split_ifs <;> simp [updateAt_length]

theorem break_wall_wallsLe (m : Maze) (ci ni j : Nat) :
    wallsLe (((m.break_wall ci ni).blocks.getD j default).walls)
      ((m.blocks.getD j default).walls) := by
  simp only [Maze.break_wall]; split_ifs
  · exact wallsLe_trans (updateAt_getD_wallsLe _ _ _ _ _ clearDown_wallsLe)
      (wallsLe_trans (updateAt_getD_wallsLe _ _ _ _ _ clearUp_wallsLe)
        (wallsLe_trans (updateAt_getD_wallsLe _ _ _ _ _ setVisited_wallsLe)
          (updateAt_getD_wallsLe _ _ _ _ _ setVisited_wallsLe)))
  · exact wallsLe_trans (updateAt_getD_wallsLe _ _ _ _ _ clearLeft_wallsLe)
      (wallsLe_trans (updateAt_getD_wallsLe _ _ _ _ _ clearRight_wallsLe)
        (wallsLe_trans (updateAt_getD_wallsLe _ _ _ _ _ setVisited_wallsLe)
          (updateAt_getD_wallsLe _ _ _ _ _ setVisited_wallsLe)))
  · exact wallsLe_trans (updateAt_getD_wallsLe _ _ _ _ _ clearUp_wallsLe)
      (wallsLe_trans (updateAt_getD_wallsLe _ _ _ _ _ clearDown_wallsLe)
        (wallsLe_trans (updateAt_getD_wallsLe _ _ _ _ _ setVisited_wallsLe)
          (updateAt_getD_wallsLe _ _ _ _ _ setVisited_wallsLe)))
  · exact wallsLe_trans (updateAt_getD_wallsLe _ _ _ _ _ clearRight_wallsLe)
      (wallsLe_trans (updateAt_getD_wallsLe _ _ _ _ _ clearLeft_wallsLe)
        (wallsLe_trans (updateAt_getD_wallsLe _ _ _ _ _ setVisited_wallsLe)
          (updateAt_getD_wallsLe _ _ _ _ _ setVisited_wallsLe)))

theorem break_wall_visited_mono (m : Maze) (ci ni j : Nat)
    (h : (m.blocks.getD j default).visited = true) :
    ((m.break_wall ci ni).blocks.getD j default).visited = true := by
  have hset : ∀ b : Block, b.visited = true → (setVisited b).visited = true := fun b _ => rfl
  have hu : ∀ b : Block, b.visited = true → (clearUp b).visited = true := fun b hb => hb
  have hr : ∀ b : Block, b.visited = true → (clearRight b).visited = true := fun b hb => hb
  have hd : ∀ b : Block, b.visited = true → (clearDown b).visited = true := fun b hb => hb
  have hl : ∀ b : Block, b.visited = true → (clearLeft b).visited = true := fun b hb => hb
  simp only [Maze.break_wall]; split_ifs
  · exact updateAt_getD_visited _ _ _ _ _ hd
      (updateAt_getD_visited _ _ _ _ _ hu
        (updateAt_getD_visited _ _ _ _ _ hset (updateAt_getD_visited _ _ _ _ _ hset h)))
  · exact updateAt_getD_visited _ _ _ _ _ hl
      (updateAt_getD_visited _ _ _ _ _ hr
        (updateAt_getD_visited _ _ _ _ _ hset (updateAt_getD_visited _ _ _ _ _ hset h)))
  · exact updateAt_getD_visited _ _ _ _ _ hu
      (updateAt_getD_visited _ _ _ _ _ hd
        (updateAt_getD_visited _ _ _ _ _ hset (updateAt_getD_visited _ _ _ _ _ hset h)))
  · exact updateAt_getD_visited _ _ _ _ _ hr
      (updateAt_getD_visited _ _ _ _ _ hl
        (updateAt_getD_visited _ _ _ _ _ hset (updateAt_getD_visited _ _ _ _ _ hset h)))

theorem break_wall_index (m : Maze) (ci ni j : Nat) :
    ((m.break_wall ci ni).blocks.getD j default).index =
      (m.blocks.getD j default).index := by
  have hset : ∀ b : Block, (setVisited b).index = b.index := fun _ => rfl
  have hu : ∀ b : Block, (clearUp b).index = b.index := fun _ => rfl
  have hr : ∀ b : Block, (clearRight b).index = b.index := fun _ => rfl
  have hd : ∀ b : Block, (clearDown b).index = b.index := fun _ => rfl
  have hl : ∀ b : Block, (clearLeft b).index = b.index := fun _ => rfl
  simp only [Maze.break_wall]; split_ifs
  · rw [updateAt_getD_index _ _ _ _ _ hd, updateAt_getD_index _ _ _ _ _ hu,
      updateAt_getD_index _ _ _ _ _ hset, updateAt_getD_index _ _ _ _ _ hset]
  · rw [updateAt_getD_index _ _ _ _ _ hl, updateAt_getD_index _ _ _ _ _ hr,
      updateAt_getD_index _ _ _ _ _ hset, updateAt_getD_index _ _ _ _ _ hset]
  · rw [updateAt_getD_index _ _ _ _ _ hu, updateAt_getD_index _ _ _ _ _ hd,
      updateAt_getD_index _ _ _ _ _ hset, updateAt_getD_index _ _ _ _ _ hset]
  · rw [updateAt_getD_index _ _ _ _ _ hr, updateAt_getD_index _ _ _ _ _ hl,
      updateAt_getD_index _ _ _ _ _ hset, updateAt_getD_index _ _ _ _ _ hset]

theorem break_wall_getD_off (m : Maze) (ci ni j : Nat) (h1 : j ≠ ci) (h2 : j ≠ ni) :
    (m.break_wall ci ni).blocks.getD j default = m.blocks.getD j default := by
  simp only [Maze.break_wall]; split_ifs <;>
    rw [getD_updateAt_of_ne _ _ _ _ _ h2, getD_updateAt_of_ne _ _ _ _ _ h1,
      getD_updateAt_of_ne _ _ _ _ _ h2, getD_updateAt_of_ne _ _ _ _ _ h1]

theorem join_length (m : Maze) (ci ni : Nat) :
    (m.join_indexes ci ni).blocks.length = m.blocks.length := by
  simp [Maze.join_indexes]

theorem join_getD_walls (m : Maze) (ci ni j : Nat) :
    ((m.join_indexes ci ni).blocks.getD j default).walls =
      (m.blocks.getD j default).walls := by
  by_cases h : j < m.blocks.length
  · simp only [Maze.join_indexes]
    rw [map_getD_lt _ _ _ _ h]
    split_ifs <;> rfl
  · have h1 : m.blocks.length ≤ j := Nat.le_of_not_lt h
    rw [List.getD_eq_default _ _ (by rw [join_length]; exact h1),
      List.getD_eq_default _ _ h1]

theorem join_getD_visited (m : Maze) (ci ni j : Nat) :
    ((m.join_indexes ci ni).blocks.getD j default).visited =
      (m.blocks.getD j default).visited := by
  by_cases h : j < m.blocks.length
  · simp only [Maze.join_indexes]
    rw [map_getD_lt _ _ _ _ h]
    split_ifs <;> rfl
  · have h1 : m.blocks.length ≤ j := Nat.le_of_not_lt h
    rw [List.getD_eq_default _ _ (by rw [join_length]; exact h1),
      List.getD_eq_default _ _ h1]

theorem join_getD_index (m : Maze) (ci ni j : Nat) (h : j < m.blocks.length) :
    ((m.join_indexes ci ni).blocks.getD j default).index =
      if (m.blocks.getD j default).index = (m.blocks.getD ni default).index
      then (m.blocks.getD ci default).index else (m.blocks.getD j default).index := by
  simp only [Maze.join_indexes]
  rw [map_getD_lt _ _ _ _ h]
  split_ifs <;> rfl

theorem run_cases (m : Maze) (cf cn : Nat) (r : Maze × Bool) (h : m.run cf cn = some r) :
    (r = (m, false) ∧ m.get_random_possible_block cf = none) ∨
    (∃ i n, m.get_random_possible_block cf = some i ∧
      m.get_visited_neighborhood i cn = some n ∧
      r = ((m.break_wall i n).join_indexes i n, true)) := by
  unfold Maze.run at h
  split at h
  · rename_i i heq
    split at h
    · rename_i n heq2
      exact Or.inr ⟨i, n, heq, heq2, (Option.some.inj h).symm⟩
    · exact absurd h (by simp)
  · rename_i heq
    exact Or.inl ⟨(Option.some.inj h).symm, heq⟩

theorem grpb_some (m : Maze) (c i : Nat) (h : m.get_random_possible_block c = some i) :
    ∃ idx, idx < m.blocks.length ∧ 0 < (m.possible_directions idx).length ∧
      (m.blocks.getD idx default).index = i := by
  simp only [Maze.get_random_possible_block] at h
  split_ifs at h with h0
  have hpos : 0 < ((List.range m.blocks.length).filterMap fun index =>
      if 0 < (m.possible_directions index).length
      then some ((m.blocks.getD index default).index) else none).length :=
    Nat.pos_of_ne_zero h0
  have hc := Nat.mod_lt c hpos
  have hmem : ((List.range m.blocks.length).filterMap fun index =>
      if 0 < (m.possible_directions index).length
      then some ((m.blocks.getD index default).index) else none).getD
        (c % ((List.range m.blocks.length).filterMap fun index =>
          if 0 < (m.possible_directions index).length
          then some ((m.blocks.getD index default).index) else none).length) 0 ∈
      (List.range m.blocks.length).filterMap fun index =>
        if 0 < (m.possible_directions index).length
        then some ((m.blocks.getD index default).index) else none := by
    rw [List.getD_eq_getElem _ _ hc]; exact List.getElem_mem hc
  rw [Option.some.inj h] at hmem
  rw [List.mem_filterMap] at hmem
  obtain ⟨idx, hidx, hif⟩ := hmem
  rw [List.mem_range] at hidx
  by_cases hp : 0 < (m.possible_directions idx).length
  · rw [if_pos hp] at hif
    exact ⟨idx, hidx, hp, Option.some.inj hif⟩
  · rw [if_neg hp] at hif
    exact absurd hif (by simp)

/-! ## Counting visited blocks, arithmetic, and concrete reachability -/

theorem countVisited_updateAt_one (bs : List Block) (i : Nat) (f : Block → Block)
    (hf : ∀ b, (f b).visited = true)
    (hall : ∀ b ∈ bs, b.visited = false) (hi : i < bs.length) :
    countVisited (updateAt bs i f) = 1 := by
  induction bs generalizing i with
  | nil => simp at hi
  | cons b rest ih =>
    have hrest : ∀ c ∈ rest, c.visited = false :=
      fun c hc => hall c (List.mem_cons_of_mem _ hc)
    cases i with
    | zero =>
      have hfil : rest.filter (fun c => c.visited) = [] :=
        List.filter_eq_nil_iff.mpr (by intro a ha; simp [hrest a ha])
      simp [updateAt, countVisited, List.filter_cons, hf b, hfil]
    | succ n =>
      have hb : b.visited = false := hall b (List.mem_cons_self _ _)
      have := ih n hrest (by simpa using Nat.lt_of_succ_lt_succ (by simpa using hi))
      simpa [updateAt, countVisited, List.filter_cons, hb] using this

theorem mem_ite_singleton (p : Prop) [Decidable p] (v j : Nat) :
    (j ∈ if p then [v] else ([] : List Nat)) ↔ p ∧ j = v := by
  split_ifs with h <;> simp [h]

theorem div_lt_pred_iff (cols rows i : Nat) (hc : 0 < cols) (hi : i < cols * rows) :
    i / cols < rows - 1 ↔ i + cols < cols * rows := by
  obtain ⟨q, r, hr, hi_eq, hq_eq⟩ : ∃ q r, r < cols ∧ i = cols * q + r ∧ i / cols = q :=
    ⟨i / cols, i % cols, Nat.mod_lt i hc, (Nat.div_add_mod i cols).symm, rfl⟩
  rw [hq_eq]
  subst hi_eq
  constructor
  · intro hlt
    have h2 : q + 2 ≤ rows := by omega
    have h3 : cols * (q + 2) ≤ cols * rows := Nat.mul_le_mul_left cols h2
    have h4 : cols * (q + 2) = cols * q + 2 * cols := by ring
    omega
  · intro hlt
    by_contra hge
    push_neg at hge
    have h5 : rows ≤ q + 1 := by omega
    have h6 : cols * rows ≤ cols * (q + 1) := Nat.mul_le_mul_left cols h5
    have h7 : cols * (q + 1) = cols * q + cols := by ring
    omega

theorem maze21s_no_adj : ∀ k, adjOpenB maze21s.1 0 k = false := by
  intro k
  match k with
  | 0 => decide
  | 1 => decide
  | (n + 2) =>
    simp only [adjOpenB]
    have hlen : maze21s.1.blocks.length = 2 := by decide
    rw [hlen]
    have h2 : ¬ (n + 2 < 2) := by omega
    simp [h2]

theorem maze21s_not_reachable : ¬ Reachable maze21s.1 0 1 := by
  intro h
  have key : ∀ k, Relation.ReflTransGen (fun a b => adjOpenB maze21s.1 a b = true) 0 k →
      k = 0 := by
    intro k hk
    induction hk with
    | refl => rfl
    | tail hab hbc ih =>
      rename_i b c
      rw [ih] at hbc
      rw [maze21s_no_adj c] at hbc
      exact absurd hbc (by simp)
  exact absurd (key 1 h) (by simp)

/-! ## Per-cell wall-change bound for one step -/

theorem wallsDiff_self (w : Walls) : wallsDiff w w = 0 := by simp [wallsDiff]

theorem wallsDiff_clearUp (b : Block) : wallsDiff (clearUp b).walls b.walls ≤ 1 := by
  simp only [clearUp, wallsDiff]
  split_ifs <;> simp

theorem wallsDiff_clearRight (b : Block) : wallsDiff (clearRight b).walls b.walls ≤ 1 := by
  simp only [clearRight, wallsDiff]
  split_ifs <;> simp

theorem wallsDiff_clearDown (b : Block) : wallsDiff (clearDown b).walls b.walls ≤ 1 := by
  simp only [clearDown, wallsDiff]
  split_ifs <;> simp

theorem wallsDiff_clearLeft (b : Block) : wallsDiff (clearLeft b).walls b.walls ≤ 1 := by
  simp only [clearLeft, wallsDiff]
  split_ifs <;> simp

theorem updateAt_getD_walls_eq (bs : List Block) (i j : Nat) (f : Block → Block) (d : Block)
    (hf : ∀ b, (f b).walls = b.walls) :
    ((updateAt bs i f).getD j d).walls = (bs.getD j d).walls := by
  rw [updateAt_getD]; split_ifs with h
  · rw [hf]
  · rfl

theorem wallsDiff_updateAt2 (bs : List Block) (ci ni j : Nat) (f g : Block → Block)
    (hne : ci ≠ ni)
    (hf : ∀ b, wallsDiff (f b).walls b.walls ≤ 1)
    (hg : ∀ b, wallsDiff (g b).walls b.walls ≤ 1) :
    wallsDiff (((updateAt (updateAt bs ci f) ni g).getD j default).walls)
      ((bs.getD j default).walls) ≤ 1 := by
  simp only [updateAt_getD]
  split_ifs with h1 h2 h3
  · exact absurd (show ci = ni by omega) hne
  · exact hg _
  · exact hf _
  · simp [wallsDiff_self]

theorem break_wall_wallsDiff_le_one (m : Maze) (ci ni j : Nat) (hne : ci ≠ ni) :
    wallsDiff (((m.break_wall ci ni).blocks.getD j default).walls)
      ((m.blocks.getD j default).walls) ≤ 1 := by
  have hsv : ∀ b : Block, (setVisited b).walls = b.walls := fun _ => rfl
  have hwalls2 : ∀ k, ((updateAt (updateAt m.blocks ci setVisited) ni setVisited).getD
      k default).walls = (m.blocks.getD k default).walls := by
    intro k
    rw [updateAt_getD_walls_eq _ _ _ _ _ hsv, updateAt_getD_walls_eq _ _ _ _ _ hsv]
  simp only [Maze.break_wall]
  split_ifs
  · have h := wallsDiff_updateAt2 (updateAt (updateAt m.blocks ci setVisited) ni setVisited)
      ci ni j clearUp clearDown hne wallsDiff_clearUp wallsDiff_clearDown
    rw [hwalls2 j] at h
    exact h
  · have h := wallsDiff_updateAt2 (updateAt (updateAt m.blocks ci setVisited) ni setVisited)
      ci ni j clearRight clearLeft hne wallsDiff_clearRight wallsDiff_clearLeft
    rw [hwalls2 j] at h
    exact h
  · have h := wallsDiff_updateAt2 (updateAt (updateAt m.blocks ci setVisited) ni setVisited)
      ci ni j clearDown clearUp hne wallsDiff_clearDown wallsDiff_clearUp
    rw [hwalls2 j] at h
    exact h
  · have h := wallsDiff_updateAt2 (updateAt (updateAt m.blocks ci setVisited) ni setVisited)
      ci ni j clearLeft clearRight hne wallsDiff_clearLeft wallsDiff_clearRight
    rw [hwalls2 j] at h
    exact h

theorem gvn_some_mem (m : Maze) (i c n : Nat)
    (h : m.get_visited_neighborhood i c = some n) : n ∈ m.possible_directions i := by
  simp only [Maze.get_visited_neighborhood] at h
  split_ifs at h with h0 h1
  · have hlt : 0 < (m.possible_directions i).length := Nat.pos_of_ne_zero h0
    rw [List.getD_eq_getElem _ _ hlt] at h
    exact (Option.some.inj h) ▸ List.getElem_mem hlt
  · have hlt : c % (m.possible_directions i).length < (m.possible_directions i).length :=
      Nat.mod_lt c (Nat.pos_of_ne_zero h0)
    rw [List.getD_eq_getElem _ _ hlt] at h
    exact (Option.some.inj h) ▸ List.getElem_mem hlt

theorem self_not_mem_pd (m : Maze) (i : Nat) : i ∉ m.possible_directions i := by
  intro hmem
  simp only [Maze.possible_directions, List.mem_append, mem_ite_singleton] at hmem
  rcases hmem with ((⟨⟨-, -, h3⟩, he⟩ | ⟨⟨-, -, h3⟩, he⟩) | ⟨⟨-, -, h3⟩, he⟩) | ⟨⟨-, -, h3⟩, he⟩
  · rw [← he] at h3; exact h3 rfl
  · rw [← he] at h3; exact h3 rfl
  · rw [← he] at h3; exact h3 rfl
  · rw [← he] at h3; exact h3 rfl

/-! ## Claim theorems -/

/-- C1 (code bug evidence): on the 2×1 grid, the first generation step
(frontier draw picking cell 0) reports progress and unifies the two
region tags, yet the two cells are NOT reachable from one another
through open walls — `break_wall(0, 1)` cleared the two outer boundary
flags instead of the shared edge, so the region/connectivity invariant
is broken after the step. -/
theorem c1_connectivity_codebug :
    Maze.new 2 1 0 = some maze21 ∧
    maze21.run 0 0 = some maze21s ∧
    maze21s.2 = true ∧
    (maze21s.1.blocks.getD 0 default).index = (maze21s.1.blocks.getD 1 default).index ∧
    ¬ Reachable maze21s.1 0 1 :=
  ⟨by decide, by decide, by decide, by decide, maze21s_not_reachable⟩

/-- C2 (code bug evidence): on the 3×1 grid, after one step that merges
cells 2 and 1 (leaving region tags `[0, 2, 2]`), `get_random_possible_block`
can return the region tag 2 — position 2 has an empty
`possible_directions` — so `get_visited_neighborhood 2` returns `none`
and the `.unwrap()` inside `run` panics (modelled: `run` = `none`). -/
theorem c2_unwrap_panics :
    Maze.new 3 1 0 = some maze31 ∧
    maze31.run 2 0 = some maze31s ∧
    maze31s.2 = true ∧
    maze31s.1.get_random_possible_block 1 = some 2 ∧
    maze31s.1.get_visited_neighborhood 2 0 = none ∧
    maze31s.1.run 1 0 = none := by decide

/-- C3 (code bug evidence): `break_wall` resolves the wrong direction for
the adjacent pairs (0, 1) and (0, cols). On the 2×1 grid, `break_wall 0 1`
clears LEFT of cell 0 and RIGHT of cell 1 (outer boundary walls) instead
of RIGHT of 0 and LEFT of 1; on the 2×2 grid, `break_wall 0 2` clears
LEFT of 0 and RIGHT of 2 instead of DOWN of 0 and UP of 2 — the guards
`next_index > 1` and `next_index > cols` misfire at equality. -/
theorem c3_break_wall_wrong_walls :
    (maze21.blocks.getD 0 default).walls =
      { up := true, right := true, down := true, left := true } ∧
    ((maze21.break_wall 0 1).blocks.getD 0 default).walls =
      { up := true, right := true, down := true, left := false } ∧
    ((maze21.break_wall 0 1).blocks.getD 1 default).walls =
      { up := true, right := false, down := true, left := true } ∧
    ((maze22.break_wall 0 2).blocks.getD 0 default).walls =
      { up := true, right := true, down := true, left := false } ∧
    ((maze22.break_wall 0 2).blocks.getD 2 default).walls =
      { up := true, right := false, down := true, left := true } := by decide

/-- C4 (code bug evidence): in the reachable 3×1 state with region tags
`[0, 2, 2]`, cells 0 and 1 do have candidates, yet
`get_random_possible_block` can return 2 — a value that is NOT the index
of any cell with a non-empty `possible_directions` (it is a region tag,
and `possible_directions 2` is empty). -/
theorem c4_frontier_not_candidate :
    maze31.run 2 0 = some maze31s ∧
    maze31s.1.get_random_possible_block 1 = some 2 ∧
    maze31s.1.possible_directions 2 = [] ∧
    0 < (maze31s.1.possible_directions 0).length ∧
    0 < (maze31s.1.possible_directions 1).length := by decide

/-- C5 (code bug evidence): 2×1 scenario. Construction marks exactly one
seed and the first step returns `true` and unifies the region tags, but
for the frontier draw that picks cell 0 the single shared edge is NOT
opened: the RIGHT wall of cell 0 and the LEFT wall of cell 1 are both
still present after the step. -/
theorem c5_two_by_one_misses_shared_edge :
    Maze.new 2 1 0 = some maze21 ∧
    countVisited maze21.blocks = 1 ∧
    maze21.run 0 0 = some maze21s ∧
    maze21s.2 = true ∧
    (maze21s.1.blocks.getD 0 default).index = (maze21s.1.blocks.getD 1 default).index ∧
    (maze21s.1.blocks.getD 0 default).walls.right = true ∧
    (maze21s.1.blocks.getD 1 default).walls.left = true := by decide

/-- C6 (counterexample): the number of cells carrying the seed/`visited`
flag is 1 after construction but 2 after the first step on the 2×1 grid —
`break_wall` sets `visited = true` on both touched cells, so generation
steps do change how many cells carry the flag. -/
theorem c6_visited_count_changes :
    countVisited maze21.blocks = 1 ∧
    maze21.run 0 0 = some maze21s ∧
    countVisited maze21s.1.blocks = 2 := by decide

/-- C6 (amended): exactly one cell has `visited = true` immediately after
construction, and generation steps never clear the flag (they may set it
on the two cells they touch, so the count can grow but never drops). -/
theorem c6_amended_seed :
    (∀ cols rows c m, Maze.new cols rows c = some m → countVisited m.blocks = 1) ∧
    (∀ (m : Maze) (cf cn : Nat) (r : Maze × Bool), m.run cf cn = some r →
      ∀ j, (m.blocks.getD j default).visited = true →
        (r.1.blocks.getD j default).visited = true) := by
  constructor
  · intro cols rows c m hm
    simp only [Maze.new] at hm
    split_ifs at hm with h0
    obtain rfl := Option.some.inj hm
    exact countVisited_updateAt_one _ _ _ (fun b => rfl)
      (mkBlocks_visited cols rows) (Nat.mod_lt _ (Nat.pos_of_ne_zero h0))
  · intro m cf cn r hr j hj
    rcases run_cases m cf cn r hr with ⟨rfl, -⟩ | ⟨i, n, -, -, rfl⟩
    · exact hj
    · rw [join_getD_visited]
      exact break_wall_visited_mono m i n j hj

/-- C6 (witness for the amended claim, at the 2×1 grid). -/
theorem c6_amended_seed_witness :
    countVisited maze21.blocks = 1 ∧
    (maze21s.1.blocks.getD 0 default).visited = true :=
  ⟨c6_amended_seed.1 2 1 0 maze21 (by decide),
   c6_amended_seed.2 maze21 0 0 maze21s (by decide) 0 (by decide)⟩

/-- C7 (counterexample): a step on the 2×1 grid changes the LEFT wall of
cell 0 — cell 0 sits in the leftmost column, so that flag borders no
neighbor and is not one side of any shared edge — while the genuinely
shared flags (RIGHT of 0 / LEFT of 1) do not change. So the flags changed
by a step are not always the matching pair of one shared edge. -/
theorem c7_boundary_wall_changes :
    maze21.run 0 0 = some maze21s ∧
    maze21s.2 = true ∧
    (maze21.blocks.getD 0 default).x = 0 ∧
    (maze21.blocks.getD 0 default).walls.left = true ∧
    (maze21s.1.blocks.getD 0 default).walls.left = false ∧
    (maze21.blocks.getD 0 default).walls.right = true ∧
    (maze21s.1.blocks.getD 0 default).walls.right = true := by decide

/-- C7 (amended): every generation step removes walls monotonically —
each wall flag of the resulting maze implies the corresponding flag of
the input maze (a cleared flag never returns) — every cell has at most
one wall flag changed by the step, and only the two cells passed to
`break_wall` can have a wall flag changed at all; the two changed flags
need not be the matching pair of one shared edge. -/
theorem c7_amended_wall_mono (m : Maze) (cf cn : Nat) (r : Maze × Bool)
    (h : m.run cf cn = some r) :
    (∀ j, wallsLe ((r.1.blocks.getD j default).walls) ((m.blocks.getD j default).walls)) ∧
    (∀ j, wallsDiff ((r.1.blocks.getD j default).walls)
      ((m.blocks.getD j default).walls) ≤ 1) ∧
    ∃ a b, ∀ j, j ≠ a → j ≠ b →
      (r.1.blocks.getD j default).walls = (m.blocks.getD j default).walls := by
  rcases run_cases m cf cn r h with ⟨rfl, -⟩ | ⟨i, n, -, hgvn, rfl⟩
  · exact ⟨fun j => wallsLe_refl _, fun j => by simp [wallsDiff_self], 0, 0,
      fun j h1 h2 => rfl⟩
  · have hne : i ≠ n := by
      intro he
      have hm := gvn_some_mem m i cn n hgvn
      rw [← he] at hm
      exact self_not_mem_pd m i hm
    refine ⟨?_, ?_, i, n, fun j h1 h2 => ?_⟩
    · intro j
      rw [join_getD_walls]
      exact break_wall_wallsLe m i n j
    · intro j
      rw [join_getD_walls]
      exact break_wall_wallsDiff_le_one m i n j hne
    · rw [join_getD_walls, break_wall_getD_off m i n j h1 h2]

/-- C7 (witness for the amended claim, at the 2×1 grid step). -/
theorem c7_amended_wall_mono_witness :
    (∀ j, wallsLe ((maze21s.1.blocks.getD j default).walls)
      ((maze21.blocks.getD j default).walls)) ∧
    (∀ j, wallsDiff ((maze21s.1.blocks.getD j default).walls)
      ((maze21.blocks.getD j default).walls) ≤ 1) ∧
    ∃ a b, ∀ j, j ≠ a → j ≠ b →
      (maze21s.1.blocks.getD j default).walls = (maze21.blocks.getD j default).walls :=
  c7_amended_wall_mono maze21 0 0 maze21s (by decide)

/-- C8: construction with a zero dimension fails (the empty-range random
draw aborts before any grid is produced, modelled as `none`); for
positive dimensions it succeeds and yields `cols*rows` cells in
row-major order, each with all four walls present and region tag equal
to its own linear index. -/
theorem c8_construction (cols rows choice : Nat) :
    ((cols = 0 ∨ rows = 0) → Maze.new cols rows choice = none) ∧
    (0 < cols → 0 < rows → ∃ m, Maze.new cols rows choice = some m ∧
      m.cols = cols ∧ m.rows = rows ∧ m.blocks.length = cols * rows ∧
      ∀ i, i < cols * rows →
        (m.blocks.getD i default).x = i % cols ∧
        (m.blocks.getD i default).y = i / cols ∧
        (m.blocks.getD i default).index = i ∧
        (m.blocks.getD i default).walls =
          { up := true, right := true, down := true, left := true }) := by
  constructor
  · intro h
    have h0 : (mkBlocks cols rows).length = 0 := by
      rw [mkBlocks_length]
      rcases h with h | h <;> simp [h]
    simp only [Maze.new]
    rw [if_pos h0]
  · intro hc hr
    have hlen : ¬ (mkBlocks cols rows).length = 0 := by
      rw [mkBlocks_length]
      exact Nat.pos_iff_ne_zero.mp (Nat.mul_pos hr hc)
    simp only [Maze.new]
    rw [if_neg hlen]
    refine ⟨_, rfl, rfl, rfl, ?_, ?_⟩
    · rw [updateAt_length, mkBlocks_length, Nat.mul_comm]
    · intro i hi
      have hi2 : i < rows * cols := by rw [Nat.mul_comm]; exact hi
      have hg := mkBlocks_getD cols rows i default hi2
      rw [updateAt_getD]
      split_ifs with hcase <;> rw [hg] <;> exact ⟨rfl, rfl, rfl, rfl⟩

/-- C8 (witness): a 0×5 construction fails; a 2×2 construction succeeds
with the advertised initial cell states. -/
theorem c8_construction_witness :
    Maze.new 0 5 0 = none ∧
    (∃ m, Maze.new 2 2 0 = some m ∧ m.cols = 2 ∧ m.rows = 2 ∧
      m.blocks.length = 2 * 2 ∧
      ∀ i, i < 2 * 2 →
        (m.blocks.getD i default).x = i % 2 ∧
        (m.blocks.getD i default).y = i / 2 ∧
        (m.blocks.getD i default).index = i ∧
        (m.blocks.getD i default).walls =
          { up := true, right := true, down := true, left := true }) :=
  ⟨(c8_construction 0 5 0).1 (Or.inl rfl),
   (c8_construction 2 2 0).2 (by decide) (by decide)⟩

/-- C9: for a well-formed grid and an in-bounds cell `i`, a value `j`
appears in `possible_directions i` exactly when `j` is a grid-adjacent
neighbor of `i` lying within grid bounds (up, right, down or left, in
linear-index arithmetic), the wall of `i` facing `j` is still present,
and the region tags of `i` and `j` differ — i.e. exactly the spec's
three candidate conditions, and the list is empty exactly when no
neighbor satisfies them. -/
theorem c9_candidate_iff (m : Maze) (hwf : WellFormed m) (i j : Nat)
    (hi : i < m.blocks.length) :
    j ∈ m.possible_directions i ↔ candidate_spec m i j := by
  obtain ⟨hlen, hcoord⟩ := hwf
  obtain ⟨hx, hy⟩ := hcoord i hi
  have hcols : 0 < m.cols := by
    rcases Nat.eq_zero_or_pos m.cols with h0 | h0
    · rw [h0, Nat.zero_mul] at hlen; omega
    · exact h0
  have hicr : i < m.cols * m.rows := hlen ▸ hi
  simp only [Maze.possible_directions, List.mem_append, mem_ite_singleton]
  rw [hx, hy]
  have hup : (0 < i / m.cols) ↔ m.cols ≤ i :=
    Nat.div_pos_iff (Nat.pos_iff_ne_zero.mp hcols)
  have hright : (i % m.cols < m.cols - 1) ↔ (i % m.cols + 1 < m.cols) := by omega
  have hdown : (i / m.cols < m.rows - 1) ↔ (i + m.cols < m.cols * m.rows) :=
    div_lt_pred_iff m.cols m.rows i hcols hicr
  unfold candidate_spec
  constructor
  · intro hmem
    rcases hmem with ((⟨⟨h1, h2, h3⟩, rfl⟩ | ⟨⟨h1, h2, h3⟩, rfl⟩) | ⟨⟨h1, h2, h3⟩, rfl⟩) | ⟨⟨h1, h2, h3⟩, rfl⟩
    · exact Or.inl ⟨hup.mp h1, rfl, h2, h3⟩
    · exact Or.inr (Or.inl ⟨hright.mp h1, rfl, h2, h3⟩)
    · exact Or.inr (Or.inr (Or.inl ⟨hdown.mp h1, rfl, h2, h3⟩))
    · exact Or.inr (Or.inr (Or.inr ⟨h1, rfl, h2, h3⟩))
  · intro hspec
    rcases hspec with ⟨h1, rfl, h2, h3⟩ | ⟨h1, rfl, h2, h3⟩ | ⟨h1, rfl, h2, h3⟩ | ⟨h1, rfl, h2, h3⟩
    · exact Or.inl (Or.inl (Or.inl ⟨⟨hup.mpr h1, h2, h3⟩, rfl⟩))
    · exact Or.inl (Or.inl (Or.inr ⟨⟨hright.mpr h1, h2, h3⟩, rfl⟩))
    · exact Or.inl (Or.inr ⟨⟨hdown.mpr h1, h2, h3⟩, rfl⟩)
    · exact Or.inr ⟨⟨h1, h2, h3⟩, rfl⟩

/-- C9 (witness at the 2×2 grid, cell 0, candidate 1). -/
theorem c9_candidate_iff_witness :
    1 ∈ maze22.possible_directions 0 ↔ candidate_spec maze22 0 1 :=
  c9_candidate_iff maze22 (by decide) 0 1 (by decide)

/-- C10: construction puts every region tag in range; tags stay in range
across every step; and whatever `get_random_possible_block` returns is a
region tag, hence an in-bounds index into `blocks`, so the indexing done
by `run` never goes out of range. -/
theorem c10_tags_in_range :
    (∀ cols rows c m, Maze.new cols rows c = some m → tagsInRange m) ∧
    (∀ (m : Maze) (c i : Nat), tagsInRange m →
      m.get_random_possible_block c = some i → i < m.blocks.length) ∧
    (∀ (m : Maze) (cf cn : Nat) (r : Maze × Bool), tagsInRange m →
      m.run cf cn = some r → tagsInRange r.1) := by
  have hpart2 : ∀ (m : Maze) (c i : Nat), tagsInRange m →
      m.get_random_possible_block c = some i → i < m.blocks.length := by
    intro m c i htags h
    obtain ⟨idx, hidx, -, hidx2⟩ := grpb_some m c i h
    exact hidx2 ▸ htags idx hidx
  refine ⟨?_, hpart2, ?_⟩
  · intro cols rows c m hm
    simp only [Maze.new] at hm
    split_ifs at hm with h0
    obtain rfl := Option.some.inj hm
    intro i hi
    rw [updateAt_length, mkBlocks_length] at hi
    rw [updateAt_getD, updateAt_length, mkBlocks_length]
    have hg := mkBlocks_getD cols rows i default hi
    split_ifs with hcase <;> rw [hg] <;> exact hi
  · intro m cf cn r htags hrun
    rcases run_cases m cf cn r hrun with ⟨rfl, -⟩ | ⟨i, n, hg, -, rfl⟩
    · exact htags
    · have hi : i < m.blocks.length := hpart2 m cf i htags hg
      intro j hj
      have hlen2 : ((m.break_wall i n).join_indexes i n).blocks.length =
          m.blocks.length := by
        rw [join_length, break_wall_length]
      rw [hlen2] at hj ⊢
      rw [join_getD_index _ _ _ _ (by rw [break_wall_length]; exact hj)]
      simp only [break_wall_index]
      split_ifs with hcase
      · exact htags i hi
      · exact htags j hj

/-- C10 (witness at the 2×1 grid and its first step). -/
theorem c10_tags_in_range_witness :
    tagsInRange maze21 ∧ 0 < maze21.blocks.length ∧ tagsInRange maze21s.1 :=
  ⟨c10_tags_in_range.1 2 1 0 maze21 (by decide),
   c10_tags_in_range.2.1 maze21 0 0 (by decide) (by decide),
   c10_tags_in_range.2.2 maze21 0 0 maze21s (by decide) (by decide)⟩
